import Mathlib

/-!
Verification of the ingestion-and-retrieval pipeline of the
`Assistant-IA-pour-services-universitaires` repository.

Text is embedded as `List Char`.  Python's `str.split()` (whitespace word
splitting), `str.strip()`, the two `re.split` patterns used by the chunker
(`\n\s*\n` and `[.!?]+\s+`), negative-index slicing (`words[-k:]`) and
`' '.join` are modelled character by character.  Whitespace is the ASCII
whitespace set recognised by Python (`' '`, `\t`, `\n`, `\r`, `\x0b`, `\x0c`);
the repository's inputs and the claims use only these characters.
-/

/-- The ASCII whitespace characters that Python's `str.split()`, `str.strip()`
and the regex class `\s` recognise. -/
def isPySpace (c : Char) : Bool :=
  c = ' ' || c = '\t' || c = '\n' || c = '\r' || c = '\x0b' || c = '\x0c'

/-- Worker for `pyWords`: `cur` is the word currently being read, reversed. -/
def pyWordsAux : List Char → List Char → List (List Char)
  | [], cur => if cur = [] then [] else [cur.reverse]
  | c :: t, cur =>
    if isPySpace c then
      if cur = [] then pyWordsAux t [] else cur.reverse :: pyWordsAux t []
    else pyWordsAux t (c :: cur)

/-- Python `s.split()`: the maximal whitespace-free runs of `s`, in order. -/
def pyWords (s : List Char) : List (List Char) := pyWordsAux s []

/-- Worker for `pyStrip`: removes a trailing run of whitespace. -/
def dropTrailWs : List Char → List Char
  | [] => []
  | c :: t =>
    let r := dropTrailWs t
    if r = [] then (if isPySpace c then [] else [c]) else c :: r

/-- Python `s.strip()`: remove leading and trailing whitespace. -/
def pyStrip (s : List Char) : List Char := dropTrailWs (s.dropWhile isPySpace)

/-- Python `' '.join(ws)`. -/
def joinSp : List (List Char) → List Char
  | [] => []
  | [w] => w
  | w :: ws => w ++ ' ' :: joinSp ws

/-- Python `l[-k:]`.  For `k > 0` this is the last `k` elements (all of `l`
when `k ≥ len(l)`); for `k = 0` the slice `l[-0:]` is `l[0:]`, i.e. all of
`l`. -/
def pySliceLast (k : Nat) (l : List α) : List α :=
  if k = 0 then l else l.drop (l.length - k)

/-- Python's substring test `pat in s`. -/
def strContains (pat : List Char) : List Char → Bool
  | [] => pat.isEmpty
  | c :: t => pat.isPrefixOf (c :: t) || strContains pat t

/-! ### The two `re.split` patterns of `simple_chunker.py`

`re.split(r'\n\s*\n', s)` and `re.split(r'[.!?]+\s+', s)` scan left to right
and, at the leftmost position where the pattern matches, remove the longest
match (the patterns are greedy and, backtracking taken into account, each
match is: for the first pattern a `\n`, then whitespace up to and including
the last `\n` of the whitespace run; for the second pattern a maximal run of
`.!?` that is followed by whitespace, together with the maximal whitespace
run after it). -/

/-- Given the input after an initial `\n`, try to complete a `\n\s*\n` match:
returns the characters of `ws` after its last `'\n'`, where `ws` is the
argument's maximal whitespace prefix; `none` when that prefix has no `'\n'`
(greedy `\s*` backtracks to the last `\n` it can leave for the final `\n`). -/
def afterLastNl : List Char → Option (List Char)
  | [] => none
  | c :: t =>
    match afterLastNl t with
    | some r => some r
    | none => if c = '\n' then some t else none

/-- Complete a `\n\s*\n` match after its first `\n`: `some rest` is the input
with the rest of the match removed. -/
def matchBlank (l : List Char) : Option (List Char) :=
  match afterLastNl (l.takeWhile isPySpace) with
  | some tail => some (tail ++ l.dropWhile isPySpace)
  | none => none

/-- Leftmost `\n\s*\n` match: `some (a, r)` means the input is `a`, then the
matched separator, then `r`. -/
def breakPara : List Char → Option (List Char × List Char)
  | [] => none
  | c :: t =>
    if c = '\n' then
      match matchBlank t with
      | some r => some ([], r)
      | none => (breakPara t).map (fun p => (c :: p.1, p.2))
    else (breakPara t).map (fun p => (c :: p.1, p.2))

/-- `re.split(r'\n\s*\n', s)`, fuelled (each removed separator is nonempty,
so `s.length` steps always suffice). -/
def paraSplitF : Nat → List Char → List (List Char)
  | 0, s => [s]
  | n + 1, s =>
    match breakPara s with
    | none => [s]
    | some (a, r) => a :: paraSplitF n r

/-- `re.split(r'\n\s*\n', s)`. -/
def paraSplit (s : List Char) : List (List Char) := paraSplitF s.length s

/-- The sentence-delimiter class `[.!?]`. -/
def isSentPunct (c : Char) : Bool := c = '.' || c = '!' || c = '?'

/-- Leftmost `[.!?]+\s+` match: `some (a, r)` means the input is `a`, then
the matched delimiter, then `r`. -/
def breakSent : List Char → Option (List Char × List Char)
  | [] => none
  | c :: t =>
    if isSentPunct c && ((t.dropWhile isSentPunct).head?.any isPySpace) then
      some ([], (t.dropWhile isSentPunct).dropWhile isPySpace)
    else (breakSent t).map (fun p => (c :: p.1, p.2))

/-- `re.split(r'[.!?]+\s+', s)`, fuelled. -/
def sentSplitF : Nat → List Char → List (List Char)
  | 0, s => [s]
  | n + 1, s =>
    match breakSent s with
    | none => [s]
    | some (a, r) => a :: sentSplitF n r

/-- `re.split(r'[.!?]+\s+', s)`. -/
def sentSplit (s : List Char) : List (List Char) := sentSplitF s.length s

/-! ### `simple_chunker.py` — `Chunk` and `SimpleTokenChunker.chunk` -/

/-- `simple_chunker.Chunk`: text plus a whitespace-token count. -/
structure Chunk where
  text : List Char
  token_count : Nat
deriving DecidableEq, Repr

/-- `Chunk(text, token_count)`: `self.token_count = token_count or
len(text.split())` — a falsy (zero) count is replaced by the computed word
count.  (`chunk` always passes the count explicitly.) -/
def mkChunk (text : List Char) (tc : Nat) : Chunk :=
  ⟨text, if tc = 0 then (pyWords text).length else tc⟩

/-- The loop state of `SimpleTokenChunker.chunk`: the sealed chunks, the
buffer `current_chunk` and the running count `current_tokens`. -/
structure ChunkerState where
  chunks : List Chunk
  cur : List Char
  tok : Nat
deriving Repr

namespace SimpleTokenChunker

/-- The body of the sentence-level fallback loop (lines 55–68 of
`simple_chunker.py`), one sentence at a time. -/
def sentStep (size ov : Nat) (st : ChunkerState) (sentence : List Char) :
    ChunkerState :=
  if pyStrip sentence = [] then st
  else
    let stoks := (pyWords sentence).length
    if st.tok + stoks > size ∧ st.cur ≠ [] then
      let overlap_text := joinSp (pySliceLast ov (pyWords st.cur))
      let cur' := if overlap_text ≠ [] then overlap_text ++ ' ' :: sentence
                  else sentence
      { chunks := st.chunks ++ [mkChunk st.cur st.tok]
        cur := cur'
        tok := (pyWords cur').length }
    else
      { chunks := st.chunks
        cur := if st.cur ≠ [] then st.cur ++ ' ' :: sentence else sentence
        tok := st.tok + stoks }

/-- The body of the paragraph loop (lines 49–79 of `simple_chunker.py`),
one paragraph at a time. -/
def paraStep (size ov : Nat) (st : ChunkerState) (paragraph : List Char) :
    ChunkerState :=
  let ptoks := (pyWords paragraph).length
  if ptoks > size then
    (sentSplit paragraph).foldl (sentStep size ov) st
  else if st.tok + ptoks > size ∧ st.cur ≠ [] then
    let overlap_words := pySliceLast ov (pyWords st.cur)
    let cur' := joinSp overlap_words ++ ' ' :: paragraph
    { chunks := st.chunks ++ [mkChunk st.cur st.tok]
      cur := cur'
      tok := (pyWords cur').length }
  else
    { chunks := st.chunks
      cur := if st.cur ≠ [] then st.cur ++ '\n' :: '\n' :: paragraph
             else paragraph
      tok := st.tok + ptoks }

/-- Lines 42–43: `paragraphs = re.split(r'\n\s*\n', text.strip())`,
`paragraphs = [p.strip() for p in paragraphs if p.strip()]`. -/
def parsedParas (text : List Char) : List (List Char) :=
  ((paraSplit (pyStrip text)).map pyStrip).filter (fun p => p ≠ [])

/-- Lines 81–83: seal the final non-empty buffer. -/
def finalizeState (st : ChunkerState) : List Chunk :=
  if st.cur ≠ [] then st.chunks ++ [mkChunk st.cur st.tok] else st.chunks

/-- `SimpleTokenChunker.chunk` (lines 28–85 of `simple_chunker.py`), with
the constructor arguments `chunk_size`, `chunk_overlap` passed explicitly. -/
def chunk (size ov : Nat) (text : List Char) : List Chunk :=
  if pyStrip text = [] then []
  else finalizeState ((parsedParas text).foldl (paraStep size ov) ⟨[], [], 0⟩)

end SimpleTokenChunker

/-! ### `qdrant_rest.py` — `QdrantRESTClient`

Network effects are made explicit: the responses the client reads are oracle
parameters (`Option` is a call that may raise), and the requests it issues
are collected in a `NetCall` trace.  `M` is the type of a metadata dict and
`V` the type of an embedding vector; the payload `{**meta, "text": text}` is
the pair of the metadata and the text keyed separately. -/

/-- A point as built by `add_documents`: id, vector, payload. -/
structure PointRec (M V : Type) where
  id : Nat
  vector : V
  payloadMeta : M
  payloadText : List Char
deriving DecidableEq, Repr

/-- One network request issued by `add_documents`. -/
inductive NetCall (M V : Type) where
  | embedReq (input : List (List Char))
  | countReq
  | upsertReq (points : List (PointRec M V))
deriving DecidableEq, Repr

/-- `points[i:i+100]` for `i in range(0, len(points), 100)`, fuelled. -/
def toBatchesF : Nat → List α → List (List α)
  | 0, _ => []
  | _, [] => []
  | n + 1, x :: l => ((x :: l).take 100) :: toBatchesF n ((x :: l).drop 100)

/-- The batches `points[i:i+100]` of the upload loop (empty input gives an
empty `range`, hence no batches). -/
def toBatches (l : List α) : List (List α) := toBatchesF l.length l

namespace QdrantRESTClient

/-- `QdrantRESTClient.add_documents` (lines 99–130 of `qdrant_rest.py`).
`embedResp` is the embedding service's reply (`none` = the call raises, and
the exception propagates); `countResp` is the `points_count` read (`none` =
the guarded `try` fails and the offset falls back to 0).  Returns the issued
request trace and the return value `len(points)`. -/
def add_documents {M V : Type} (texts : List (List Char)) (metadatas : List M)
    (embedResp : Option (List V)) (countResp : Option Nat) :
    Option (List (NetCall M V) × Nat) :=
  if texts = [] then some ([], 0)
  else
    match embedResp with
    | none => none
    | some embeddings =>
      let offset := countResp.getD 0
      let points := (List.zip texts (List.zip embeddings metadatas)).enum.map
        (fun q => { id := offset + q.1, vector := q.2.2.1,
                    payloadMeta := q.2.2.2, payloadText := q.2.1 })
      some ([NetCall.embedReq texts, NetCall.countReq] ++
        (toBatches points).map NetCall.upsertReq, points.length)

/-- The point batches of the upsert requests in a trace. -/
def upsertBatches {M V : Type} (tr : List (NetCall M V)) :
    List (List (PointRec M V)) :=
  tr.filterMap (fun c =>
    match c with
    | NetCall.upsertReq ps => some ps
    | _ => none)

/-- `QdrantRESTClient._get_embedding_dim` (lines 67–74 of
`qdrant_rest.py`). -/
def get_embedding_dim (model : List Char) : Nat :=
  if strContains (("3-small").toList) model ||
      strContains (("ada-002").toList) model then 1536
  else if strContains (("3-large").toList) model then 3072
  else 1536

/-- Outcome of `_ensure_collection`. -/
inductive EnsureAction where
  | created (size : Nat)
  | existing
  | errored
deriving DecidableEq, Repr

/-- `QdrantRESTClient._ensure_collection` (lines 48–65): list the collection
names (`none` = the request raises, which the method catches and logs); when
the configured name is absent, create the collection with vector size
`_get_embedding_dim()`. -/
def ensure_collection (collectionsResp : Option (List (List Char)))
    (collName model : List Char) : EnsureAction :=
  match collectionsResp with
  | none => EnsureAction.errored
  | some names =>
    if collName ∈ names then EnsureAction.existing
    else EnsureAction.created (get_embedding_dim model)

end QdrantRESTClient

/-! ### `chunker.py` — `TextChunker` (over the `SimpleTokenChunker`
fallback, the concrete chunker of this environment) -/

/-- The metadata attached to a chunk by `chunk_documents` /
`ingest_file`. -/
structure ChunkMeta where
  source : List Char
  chunk_index : Nat
deriving DecidableEq, Repr

/-- A chunk record `{"text": ..., "metadata": ...}`. -/
structure FormattedChunk where
  text : List Char
  metadata : ChunkMeta
deriving DecidableEq, Repr

namespace TextChunker

/-- `TextChunker.chunk_text` (lines 22–36 of `chunker.py`). -/
def chunk_text (size ov : Nat) (text : List Char) : List Chunk :=
  if pyStrip text = [] then [] else SimpleTokenChunker.chunk size ov text

/-- `TextChunker.chunk_documents` (lines 38–62): documents are an
insertion-ordered name→text mapping. -/
def chunk_documents (size ov : Nat) (texts : List (List Char × List Char)) :
    List FormattedChunk :=
  texts.flatMap (fun d =>
    ((chunk_text size ov d.2).enum).map (fun q =>
      { text := q.2.text, metadata := { source := d.1, chunk_index := q.1 } }))

/-- `TextChunker.format_for_qdrant` (lines 64–76), at the record level
(the well-typed call, as made by `ingest_directory`). -/
def format_for_qdrant (chunks : List FormattedChunk) :
    List (List Char) × List ChunkMeta :=
  (chunks.map FormattedChunk.text, chunks.map FormattedChunk.metadata)

end TextChunker

/-! ### `pdf_extractor.py` — `DocumentExtractor`

The file system is abstracted: a directory is the list of the files below
it (in listing order), each carrying its base name, whether it sits at the
directory's top level, its suffix and what reading it yields. -/

/-- A supported file suffix. -/
inductive FileExt where
  | pdf
  | txt
  | md
deriving DecidableEq, Repr

/-- What reading/parsing a file yields. -/
inductive MContent where
  | plain (s : List Char)
  | pdfPages (ps : List (List Char))
  | broken
deriving DecidableEq, Repr

/-- A file as seen by `extract_from_directory`. -/
structure MFile where
  name : List Char
  top : Bool
  ext : FileExt
  content : MContent
deriving DecidableEq, Repr

namespace DocumentExtractor

/-- `DocumentExtractor.extract_text` (lines 14–43 of `pdf_extractor.py`)
on an existing supported file: text/markdown is the file verbatim; a PDF is
every page's text each followed by `"\n"`, stripped; a failing read or parse
raises (`error`). -/
def extract_text (f : MFile) : Except Unit (List Char) :=
  match f.ext, f.content with
  | FileExt.txt, MContent.plain s => Except.ok s
  | FileExt.md, MContent.plain s => Except.ok s
  | FileExt.pdf, MContent.pdfPages ps =>
      Except.ok (pyStrip (ps.flatMap (fun p => p ++ ['\n'])))
  | _, _ => Except.error ()

/-- The `files` list of `extract_from_directory` (lines 61–65): for each of
`*.pdf`, `*.txt`, `*.md`, first `directory.glob(ext)` (the top-level files)
then `directory.glob(f"**/{ext}")` (which matches every file again, the
top-level ones included, since `**` also matches zero directories). -/
def filesOf (dir : List MFile) : List MFile :=
  [FileExt.pdf, FileExt.txt, FileExt.md].flatMap (fun e =>
    dir.filter (fun f => f.top && f.ext == e) ++
      dir.filter (fun f => f.ext == e))

/-- Python dict assignment `results[name] = text` on an insertion-ordered
association list: overwrite in place, else append. -/
def assocSet {V : Type} : List (List Char × V) → List Char → V →
    List (List Char × V)
  | [], k, v => [(k, v)]
  | (k', v') :: rest, k, v =>
    if k' = k then (k', v) :: rest else (k', v') :: assocSet rest k v

/-- `DocumentExtractor.extract_from_directory` (lines 45–75): extract each
enumerated file, storing successes under the file's base name and skipping
(logging) failures. -/
def extract_from_directory (dir : List MFile) :
    List (List Char × List Char) :=
  (filesOf dir).foldl
    (fun results f =>
      match extract_text f with
      | Except.ok t => assocSet results f.name t
      | Except.error _ => results)
    []

end DocumentExtractor

/-! ### `ingest.py` — `IngestionPipeline` -/

/-- The pipeline-level effects whose (non-)occurrence the claims are about. -/
inductive PipeAction where
  | clearColl
  | chunkCall
  | addDocsCall
  | infoCall
deriving DecidableEq, Repr

/-- A Python exception class, as far as the pipeline distinguishes them. -/
inductive PyErr where
  | typeError
  | keyError
  | fileNotFound
  | serviceError
deriving DecidableEq, Repr

/-- The result dict of `ingest_directory`: either the
`{"status": "warning", ..., "files_processed": 0}` dict or the
`{"status": "success", ...}` dict. -/
inductive IngestSummary where
  | warning (files_processed : Nat)
  | success (files_processed chunks_created chunks_added total_documents : Nat)
deriving DecidableEq, Repr

/-- The result dict of `ingest_file` (its success branch). -/
inductive FileSummary where
  | success (file : List Char) (chunks_created chunks_added : Nat)
deriving DecidableEq, Repr

/-- A dynamically-typed Python value, as far as `format_for_qdrant`
inspects one. -/
inductive PyVal where
  | str (s : List Char)
  | int (n : Nat)
  | list (items : List PyVal)
  | dict (entries : List (List Char × PyVal))

/-- Dict lookup on an association list. -/
def pyLookup : List (List Char × PyVal) → List Char → Option PyVal
  | [], _ => none
  | (k, v) :: rest, key => if k = key then some v else pyLookup rest key

/-- Python subscription `v[key]` with a string key: succeeds on a dict
holding the key, raises `KeyError` on a dict without it, and raises
`TypeError` on a list, string or int (their indices must be integers). -/
def pyIndexStr (v : PyVal) (key : List Char) : Except PyErr PyVal :=
  match v with
  | PyVal.dict es =>
    match pyLookup es key with
    | some x => Except.ok x
    | none => Except.error PyErr.keyError
  | _ => Except.error PyErr.typeError

/-- `TextChunker.format_for_qdrant` at Python's dynamic-typing level: the
comprehensions `[chunk["text"] for chunk in chunks]` then
`[chunk["metadata"] for chunk in chunks]`, left to right, first raised
exception propagating. -/
def format_for_qdrant_dyn (chunks : List PyVal) :
    Except PyErr (List PyVal × List PyVal) := do
  let texts ← chunks.mapM (fun c => pyIndexStr c (("text").toList))
  let metadatas ← chunks.mapM (fun c => pyIndexStr c (("metadata").toList))
  return (texts, metadatas)

namespace IngestionPipeline

/-- `IngestionPipeline.ingest_directory` (lines 21–73 of `ingest.py`).
`documents` is what `extract_from_directory` returned; `embedResp`,
`countResp` and `infoPoints` are the vector-store oracles (embedding reply,
`points_count` read inside `add_documents`, and `get_collection_info`'s
point count).  Returns the pipeline-effect trace and the result. -/
def ingest_directory {V : Type} (dirExists force : Bool)
    (documents : List (List Char × List Char)) (size ov : Nat)
    (embedResp : Option (List V)) (countResp : Option Nat)
    (infoPoints : Nat) : List PipeAction × Except PyErr IngestSummary :=
  if dirExists = false then ([], Except.error PyErr.fileNotFound)
  else
    let tr0 := if force then [PipeAction.clearColl] else []
    if documents = [] then (tr0, Except.ok (IngestSummary.warning 0))
    else
      let chunks := TextChunker.chunk_documents size ov documents
      let fq := TextChunker.format_for_qdrant chunks
      match QdrantRESTClient.add_documents fq.1 fq.2 embedResp countResp with
      | none => (tr0 ++ [PipeAction.chunkCall, PipeAction.addDocsCall],
          Except.error PyErr.serviceError)
      | some q =>
          (tr0 ++ [PipeAction.chunkCall, PipeAction.addDocsCall,
            PipeAction.infoCall],
            Except.ok (IngestSummary.success documents.length chunks.length
              q.2 infoPoints))

/-- `IngestionPipeline.ingest_file` (lines 75–114 of `ingest.py`): extract,
chunk, build the per-chunk dicts, then call
`format_for_qdrant([formatted_chunks])` — note the argument is the
one-element list whose element is the list of chunk dicts.  `addResult`
is what `add_documents` would return in the success branch. -/
def ingest_file (fileExists : Bool) (fileName : List Char)
    (extractResult : Except PyErr (List Char)) (size ov : Nat)
    (addResult : Nat) : List PipeAction × Except PyErr FileSummary :=
  if fileExists = false then ([], Except.error PyErr.fileNotFound)
  else
    match extractResult with
    | Except.error e => ([], Except.error e)
    | Except.ok text =>
      let chunks := TextChunker.chunk_text size ov text
      let formatted := chunks.enum.map (fun q => PyVal.dict
        [(("text").toList, PyVal.str q.2.text),
         (("metadata").toList, PyVal.dict
           [(("source").toList, PyVal.str fileName),
            (("chunk_index").toList, PyVal.int q.1)])])
      match format_for_qdrant_dyn [PyVal.list formatted] with
      | Except.error e => ([PipeAction.chunkCall], Except.error e)
      | Except.ok _ =>
          ([PipeAction.chunkCall, PipeAction.addDocsCall],
            Except.ok (FileSummary.success fileName chunks.length addResult))

end IngestionPipeline

/-! ### Lemmas about `pyWords` -/

theorem pyWordsAux_allSpace {s : List Char} (hs : ∀ c ∈ s, isPySpace c) :
    ∀ cur, pyWordsAux s cur = if cur = [] then [] else [cur.reverse] := by
  induction s with
  | nil => intro cur; rfl
  | cons c t ih =>
    intro cur
    have hc : isPySpace c := hs c (by simp)
    have ht : ∀ x ∈ t, isPySpace x := fun x hx => hs x (by simp [hx])
    simp only [pyWordsAux, hc, if_true]
    by_cases hcur : cur = []
    · simp [hcur, ih ht]
    · simp [hcur, ih ht]

theorem pyWordsAux_nil_leading_ws :
    ∀ (d : List Char), (∀ c ∈ d, isPySpace c) →
      ∀ b, pyWordsAux (d ++ b) [] = pyWordsAux b [] := by
  intro d
  induction d with
  | nil => intro _ b; rfl
  | cons c t ih =>
    intro hd b
    have hc : isPySpace c := hd c (by simp)
    have ht : ∀ x ∈ t, isPySpace x := fun x hx => hd x (by simp [hx])
    simp only [List.cons_append, pyWordsAux, hc, if_true, if_pos rfl]
    exact ih ht b

theorem pyWordsAux_append_sep {d b : List Char} (hd : d ≠ [])
    (hds : ∀ c ∈ d, isPySpace c) :
    ∀ (a cur : List Char),
      pyWordsAux (a ++ d ++ b) cur =
        pyWordsAux a cur ++ pyWordsAux b [] := by
  intro a
  induction a with
  | nil =>
    intro cur
    obtain ⟨e, d', rfl⟩ : ∃ e d', d = e :: d' := by
      cases d with
      | nil => exact absurd rfl hd
      | cons e d' => exact ⟨e, d', rfl⟩
    have he : isPySpace e := hds e (by simp)
    have hd' : ∀ c ∈ d', isPySpace c := fun c hc => hds c (by simp [hc])
    simp only [List.nil_append, List.cons_append, pyWordsAux, he, if_true]
    by_cases h : cur = [] <;>
      simp [h, pyWordsAux, pyWordsAux_nil_leading_ws d' hd' b]
  | cons c a' ih =>
    intro cur
    by_cases hc : isPySpace c
    · simp only [List.cons_append, pyWordsAux, hc, if_true]
      by_cases h : cur = [] <;> simp [h, ← List.append_assoc, ih]
    · simp only [List.cons_append, pyWordsAux, hc]
      simp [← List.append_assoc, ih]

/-- Inserting a nonempty all-whitespace separator splits the word list. -/
theorem pyWords_append_sep {a d b : List Char} (hd : d ≠ [])
    (hds : ∀ c ∈ d, isPySpace c) :
    pyWords (a ++ d ++ b) = pyWords a ++ pyWords b :=
  pyWordsAux_append_sep hd hds a []

/-- A leading all-whitespace run does not change the word list. -/
theorem pyWords_leading_ws {w r : List Char} (hw : ∀ c ∈ w, isPySpace c) :
    pyWords (w ++ r) = pyWords r := by
  cases w with
  | nil => rfl
  | cons c t =>
    have := pyWordsAux_append_sep (d := c :: t) (b := r) (by simp) hw [] []
    simpa [pyWords] using this

theorem dropTrailWs_eq_nil_allSpace :
    ∀ {t : List Char}, dropTrailWs t = [] → ∀ x ∈ t, isPySpace x := by
  intro t
  induction t with
  | nil => intro _ x hx; simp at hx
  | cons c t ih =>
    intro h x hx
    simp only [dropTrailWs] at h
    by_cases hr : dropTrailWs t = []
    · simp only [hr, if_true] at h
      rcases List.mem_cons.mp hx with rfl | hx'
      · by_cases hc : isPySpace x
        · exact hc
        · simp [hc] at h
      · exact ih hr x hx'
    · simp [hr] at h

theorem pyWordsAux_dropTrailWs :
    ∀ (t : List Char) (cur : List Char),
      pyWordsAux (dropTrailWs t) cur = pyWordsAux t cur := by
  intro t
  induction t with
  | nil => intro cur; rfl
  | cons c t ih =>
    intro cur
    by_cases hr : dropTrailWs t = []
    · have hts : ∀ x ∈ t, isPySpace x := dropTrailWs_eq_nil_allSpace hr
      by_cases hc : isPySpace c
      · by_cases h : cur = [] <;>
          simp [dropTrailWs, hr, hc, pyWordsAux, pyWordsAux_allSpace hts, h]
      · by_cases h : cur = [] <;>
          simp [dropTrailWs, hr, hc, pyWordsAux, pyWordsAux_allSpace hts, h]
    · simp only [dropTrailWs, hr, if_false]
      by_cases hc : isPySpace c
      · simp only [pyWordsAux, hc, if_true]
        by_cases h : cur = [] <;> simp [h, ih]
      · simp only [pyWordsAux, hc, if_false]
        exact ih _

/-- `strip` does not change the word list. -/
theorem pyWords_pyStrip (s : List Char) : pyWords (pyStrip s) = pyWords s := by
  have h1 : pyWords (s.dropWhile isPySpace) = pyWords s := by
    conv_rhs => rw [← List.takeWhile_append_dropWhile isPySpace s]
    exact (pyWords_leading_ws (fun c hc => List.mem_takeWhile_imp hc)).symm
  calc pyWords (pyStrip s) = pyWords (s.dropWhile isPySpace) :=
        pyWordsAux_dropTrailWs _ []
    _ = pyWords s := h1

theorem pyWordsAux_mem {s : List Char} :
    ∀ {cur w : List Char}, (∀ c ∈ cur, ¬ isPySpace c) →
      w ∈ pyWordsAux s cur → w ≠ [] ∧ ∀ c ∈ w, ¬ isPySpace c := by
  induction s with
  | nil =>
    intro cur w hcur hw
    simp only [pyWordsAux] at hw
    by_cases h : cur = []
    · simp [h] at hw
    · simp only [h, if_false, List.mem_singleton] at hw
      subst hw
      refine ⟨by simpa using h, fun c hc => hcur c (by simpa using hc)⟩
  | cons c t ih =>
    intro cur w hcur hw
    simp only [pyWordsAux] at hw
    by_cases hc : isPySpace c
    · simp only [hc, if_true] at hw
      by_cases h : cur = []
      · simp only [h, if_true] at hw
        exact ih (by simp) hw
      · simp only [h, if_false, List.mem_cons] at hw
        rcases hw with rfl | hw
        · refine ⟨by simpa using h, fun x hx => hcur x (by simpa using hx)⟩
        · exact ih (by simp) hw
    · simp only [hc, if_false] at hw
      refine ih (fun x hx => ?_) hw
      rcases List.mem_cons.mp hx with rfl | hx'
      · exact hc
      · exact hcur x hx'

/-- Members of `pyWords s` are nonempty and whitespace-free. -/
theorem pyWords_mem {s w : List Char} (hw : w ∈ pyWords s) :
    w ≠ [] ∧ ∀ c ∈ w, ¬ isPySpace c :=
  pyWordsAux_mem (by simp) hw

theorem pyWordsAux_single {w : List Char} (hw : w ≠ [])
    (hws : ∀ c ∈ w, ¬ isPySpace c) :
    ∀ cur, pyWordsAux w cur = [cur.reverse ++ w] := by
  induction w with
  | nil => exact absurd rfl hw
  | cons c t ih =>
    intro cur
    have hc : ¬ isPySpace c := hws c (by simp)
    simp only [pyWordsAux, hc, if_false]
    cases t with
    | nil => simp [pyWordsAux]
    | cons d t' =>
      have := ih (by simp) (fun x hx => hws x (by simp [hx])) (c :: cur)
      rw [this]
      simp

/-- The word list of a single nonempty whitespace-free word. -/
theorem pyWords_single {w : List Char} (hw : w ≠ [])
    (hws : ∀ c ∈ w, ¬ isPySpace c) : pyWords w = [w] := by
  simpa using pyWordsAux_single hw hws []

/-! ### Lemmas about `joinSp` -/

/-- Joining nonempty whitespace-free words with single spaces splits back to
the same word list. -/
theorem pyWords_joinSp :
    ∀ {ws : List (List Char)},
      (∀ w ∈ ws, w ≠ [] ∧ ∀ c ∈ w, ¬ isPySpace c) →
      pyWords (joinSp ws) = ws := by
  intro ws
  induction ws with
  | nil => intro _; rfl
  | cons w ws ih =>
    intro h
    obtain ⟨hw, hwc⟩ := h w (by simp)
    cases ws with
    | nil => simpa [joinSp] using pyWords_single hw hwc
    | cons v vs =>
      have hjoin : joinSp (w :: v :: vs) = w ++ [' '] ++ joinSp (v :: vs) := by
        simp [joinSp]
      rw [hjoin, pyWords_append_sep (by simp) (by simp [isPySpace]),
        pyWords_single hw hwc]
      rw [ih (fun x hx => h x (by simp [List.mem_cons.mp hx]))]
      rfl

theorem joinSp_ne_nil {ws : List (List Char)} (h : ws ≠ [])
    (hne : ∀ w ∈ ws, w ≠ []) : joinSp ws ≠ [] := by
  cases ws with
  | nil => exact absurd rfl h
  | cons w ws =>
    have hw : w ≠ [] := hne w (by simp)
    cases ws with
    | nil => simpa [joinSp] using hw
    | cons v vs => simp [joinSp, hw]

/-- Elements of `pySliceLast k l` come from `l`. -/
theorem pySliceLast_subset {k : Nat} {l : List α} {x : α}
    (h : x ∈ pySliceLast k l) : x ∈ l := by
  unfold pySliceLast at h
  by_cases hk : k = 0
  · simpa [hk] using h
  · simp only [hk, if_false] at h
    exact List.drop_subset _ l h

/-! ### Decomposition lemmas for the regex splits -/

theorem afterLastNl_decomp :
    ∀ {ws tail : List Char}, afterLastNl ws = some tail →
      ∃ pre, ws = pre ++ '\n' :: tail := by
  intro ws
  induction ws with
  | nil => intro tail h; simp [afterLastNl] at h
  | cons c t ih =>
    intro tail h
    simp only [afterLastNl] at h
    cases hrec : afterLastNl t with
    | some r =>
      rw [hrec] at h
      obtain rfl : r = tail := by simpa using h
      obtain ⟨pre, hpre⟩ := ih hrec
      exact ⟨c :: pre, by simp [hpre]⟩
    | none =>
      rw [hrec] at h
      by_cases hc : c = '\n'
      · simp only [hc, if_true] at h
        obtain rfl : t = tail := by simpa using h
        exact ⟨[], by simp [hc]⟩
      · simp [hc] at h

theorem matchBlank_decomp {l r : List Char} (h : matchBlank l = some r) :
    ∃ w, l = w ++ r ∧ ∀ c ∈ w, isPySpace c := by
  unfold matchBlank at h
  cases htail : afterLastNl (l.takeWhile isPySpace) with
  | none => rw [htail] at h; simp at h
  | some tail =>
    rw [htail] at h
    obtain rfl : tail ++ l.dropWhile isPySpace = r := by simpa using h
    obtain ⟨pre, hpre⟩ := afterLastNl_decomp htail
    refine ⟨pre ++ ['\n'], ?_, ?_⟩
    · conv_lhs => rw [← List.takeWhile_append_dropWhile isPySpace l]
      rw [hpre]
      simp
    · intro c hc
      have hmem : c ∈ l.takeWhile isPySpace := by
        rw [hpre]
        rcases List.mem_append.mp hc with h' | h'
        · simp [h']
        · simp at h'
          simp [h']
      exact List.mem_takeWhile_imp hmem

theorem breakPara_decomp :
    ∀ {s a r : List Char}, breakPara s = some (a, r) →
      ∃ d, s = a ++ d ++ r ∧ d ≠ [] ∧ ∀ c ∈ d, isPySpace c := by
  intro s
  induction s with
  | nil => intro a r h; simp [breakPara] at h
  | cons c t ih =>
    intro a r h
    simp only [breakPara] at h
    by_cases hc : c = '\n'
    · rw [if_pos hc] at h
      cases hmb : matchBlank t with
      | some r' =>
        rw [hmb] at h
        obtain ⟨rfl, rfl⟩ : [] = a ∧ r' = r := by
          simpa using congrArg (fun x => x) h
        obtain ⟨w, hw, hws⟩ := matchBlank_decomp hmb
        refine ⟨c :: w, by simp [hw], by simp, ?_⟩
        intro x hx
        rcases List.mem_cons.mp hx with rfl | hx'
        · simp [hc, isPySpace]
        · exact hws x hx'
      | none =>
        rw [hmb] at h
        cases hbp : breakPara t with
        | none => rw [hbp] at h; simp at h
        | some p =>
          rw [hbp] at h
          obtain ⟨ha, hr⟩ : c :: p.1 = a ∧ p.2 = r := by simpa using h
          obtain ⟨d, hd, hdne, hds⟩ := ih (a := p.1) (r := p.2) (by simp [hbp])
          exact ⟨d, by simp [← ha, ← hr, hd], hdne, hds⟩
    · rw [if_neg hc] at h
      cases hbp : breakPara t with
      | none => rw [hbp] at h; simp at h
      | some p =>
        rw [hbp] at h
        obtain ⟨ha, hr⟩ : c :: p.1 = a ∧ p.2 = r := by simpa using h
        obtain ⟨d, hd, hdne, hds⟩ := ih (a := p.1) (r := p.2) (by simp [hbp])
        exact ⟨d, by simp [← ha, ← hr, hd], hdne, hds⟩

theorem breakPara_length {s a r : List Char} (h : breakPara s = some (a, r)) :
    r.length < s.length := by
  obtain ⟨d, hd, hdne, _⟩ := breakPara_decomp h
  subst hd
  have : 0 < d.length := List.length_pos.mpr hdne
  simp only [List.length_append]
  omega

/-- Splitting on `\n\s*\n` separators conserves the word list. -/
theorem pyWords_paraSplitF :
    ∀ (n : Nat) (s : List Char), s.length ≤ n →
      pyWords s = ((paraSplitF n s).map pyWords).flatten := by
  intro n
  induction n with
  | zero =>
    intro s hs
    obtain rfl : s = [] := List.eq_nil_of_length_eq_zero (Nat.le_zero.mp hs)
    rfl
  | succ n ih =>
    intro s hs
    cases hbp : breakPara s with
    | none => simp [paraSplitF, hbp]
    | some p =>
      obtain ⟨a, r⟩ := p
      obtain ⟨d, hd, hdne, hds⟩ := breakPara_decomp hbp
      have hr : r.length ≤ n := by
        have := breakPara_length hbp
        omega
      simp only [paraSplitF, hbp, List.map_cons, List.flatten_cons]
      rw [hd, pyWords_append_sep hdne hds, ih r hr]

theorem pyWords_paraSplit (s : List Char) :
    pyWords s = ((paraSplit s).map pyWords).flatten :=
  pyWords_paraSplitF s.length s le_rfl

/-- Words of the input survive paragraph parsing (split + strip + filter). -/
theorem pyWords_parsedParas (text : List Char) :
    pyWords text = ((SimpleTokenChunker.parsedParas text).map pyWords).flatten := by
  unfold SimpleTokenChunker.parsedParas
  rw [← pyWords_pyStrip text, pyWords_paraSplit (pyStrip text)]
  generalize paraSplit (pyStrip text) = parts
  induction parts with
  | nil => rfl
  | cons p ps ih =>
    by_cases hp : pyStrip p = []
    · have hw : pyWords p = [] := by
        rw [← pyWords_pyStrip p, hp]; rfl
      simp only [List.map_cons, List.flatten_cons, hw, List.nil_append,
        List.filter_cons]
      simpa [hp] using ih
    · have hcond : (decide ¬pyStrip p = []) = true := by simp [hp]
      simp only [List.map_cons, List.flatten_cons, List.filter_cons, ne_eq,
        hcond, if_true, List.map_cons, List.flatten_cons]
      rw [← pyWords_pyStrip p, ih]

/-! ### Word conservation through the chunker (paragraph-level path) -/

namespace SimpleTokenChunker

theorem mem_finalizeState_of_mem_chunks {st : ChunkerState} {c : Chunk}
    (h : c ∈ st.chunks) : c ∈ finalizeState st := by
  unfold finalizeState
  by_cases hcur : st.cur ≠ [] <;> simp [hcur, h]

theorem mem_finalizeState_of_mem_cur {st : ChunkerState} {w : List Char}
    (h : w ∈ pyWords st.cur) :
    ∃ c ∈ finalizeState st, w ∈ pyWords c.text := by
  have hcur : st.cur ≠ [] := by
    intro hnil
    rw [hnil] at h
    simp [pyWords, pyWordsAux] at h
  refine ⟨mkChunk st.cur st.tok, ?_, ?_⟩
  · unfold finalizeState
    simp [hcur]
  · simpa [mkChunk] using h

theorem paraStep_fallback_eq {size ov : Nat} {st : ChunkerState}
    {p : List Char} (h1 : (pyWords p).length > size) :
    paraStep size ov st p = (sentSplit p).foldl (sentStep size ov) st := by
  unfold paraStep
  rw [if_pos h1]

theorem paraStep_seal_eq {size ov : Nat} {st : ChunkerState} {p : List Char}
    (h1 : ¬ (pyWords p).length > size)
    (h2 : st.tok + (pyWords p).length > size ∧ st.cur ≠ []) :
    paraStep size ov st p =
      { chunks := st.chunks ++ [mkChunk st.cur st.tok]
        cur := joinSp (pySliceLast ov (pyWords st.cur)) ++ ' ' :: p
        tok := (pyWords
          (joinSp (pySliceLast ov (pyWords st.cur)) ++ ' ' :: p)).length } := by
  unfold paraStep
  rw [if_neg h1, if_pos h2]

theorem paraStep_acc_eq {size ov : Nat} {st : ChunkerState} {p : List Char}
    (h1 : ¬ (pyWords p).length > size)
    (h2 : ¬ (st.tok + (pyWords p).length > size ∧ st.cur ≠ [])) :
    paraStep size ov st p =
      { chunks := st.chunks
        cur := if st.cur ≠ [] then st.cur ++ '\n' :: '\n' :: p else p
        tok := st.tok + (pyWords p).length } := by
  unfold paraStep
  rw [if_neg h1, if_neg h2]

theorem sentStep_skip_eq {size ov : Nat} {st : ChunkerState}
    {s : List Char} (h : pyStrip s = []) : sentStep size ov st s = st := by
  unfold sentStep
  rw [if_pos h]

theorem sentStep_seal_eq {size ov : Nat} {st : ChunkerState} {s : List Char}
    (h : ¬ pyStrip s = [])
    (h2 : st.tok + (pyWords s).length > size ∧ st.cur ≠ []) :
    sentStep size ov st s =
      { chunks := st.chunks ++ [mkChunk st.cur st.tok]
        cur := if joinSp (pySliceLast ov (pyWords st.cur)) ≠ [] then
            joinSp (pySliceLast ov (pyWords st.cur)) ++ ' ' :: s
          else s
        tok := (pyWords (if joinSp (pySliceLast ov (pyWords st.cur)) ≠ [] then
            joinSp (pySliceLast ov (pyWords st.cur)) ++ ' ' :: s
          else s)).length } := by
  unfold sentStep
  rw [if_neg h, if_pos h2]

theorem sentStep_acc_eq {size ov : Nat} {st : ChunkerState} {s : List Char}
    (h : ¬ pyStrip s = [])
    (h2 : ¬ (st.tok + (pyWords s).length > size ∧ st.cur ≠ [])) :
    sentStep size ov st s =
      { chunks := st.chunks
        cur := if st.cur ≠ [] then st.cur ++ ' ' :: s else s
        tok := st.tok + (pyWords s).length } := by
  unfold sentStep
  rw [if_neg h, if_neg h2]

/-- Words of the buffer after an accumulate / seal step in the
paragraph-level loop.  With no oversized paragraph, `paraStep` keeps every
word it has seen in a sealed chunk or in the buffer. -/
theorem paraStep_transfer {size ov : Nat} {st : ChunkerState}
    {p w : List Char} (hp : (pyWords p).length ≤ size)
    (hw : w ∈ pyWords p ∨ (∃ c ∈ st.chunks, w ∈ pyWords c.text) ∨
      w ∈ pyWords st.cur) :
    (∃ c ∈ (paraStep size ov st p).chunks, w ∈ pyWords c.text) ∨
      w ∈ pyWords (paraStep size ov st p).cur := by
  have hnb : ¬ ((pyWords p).length > size) := by omega
  by_cases hseal : st.tok + (pyWords p).length > size ∧ st.cur ≠ []
  · rw [paraStep_seal_eq hnb hseal]
    have hcur' :
        pyWords (joinSp (pySliceLast ov (pyWords st.cur)) ++ ' ' :: p) =
          pyWords (joinSp (pySliceLast ov (pyWords st.cur))) ++ pyWords p := by
      have := pyWords_append_sep
        (a := joinSp (pySliceLast ov (pyWords st.cur))) (d := [' ']) (b := p)
        (by simp) (by simp [isPySpace])
      simpa using this
    rcases hw with hw | ⟨c, hc, hcw⟩ | hw
    · right
      simp only [hcur']
      exact List.mem_append_right _ hw
    · left
      exact ⟨c, by simp [hc], hcw⟩
    · left
      exact ⟨mkChunk st.cur st.tok, by simp, by simpa [mkChunk] using hw⟩
  · rw [paraStep_acc_eq hnb hseal]
    have hcur' :
        pyWords (if st.cur ≠ [] then st.cur ++ '\n' :: '\n' :: p else p) =
          pyWords st.cur ++ pyWords p := by
      by_cases hc : st.cur ≠ []
      · rw [if_pos hc]
        have := pyWords_append_sep (a := st.cur) (d := ['\n', '\n']) (b := p)
          (by simp) (by simp [isPySpace])
        simpa using this
      · rw [if_neg hc]
        have hnil : st.cur = [] := not_not.mp hc
        simp [hnil, pyWords, pyWordsAux]
    rcases hw with hw | ⟨c, hc, hcw⟩ | hw
    · right
      simp only [hcur']
      exact List.mem_append_right _ hw
    · left
      exact ⟨c, hc, hcw⟩
    · right
      simp only [hcur']
      exact List.mem_append_left _ hw

theorem chunk_conserves_aux (size ov : Nat) :
    ∀ (paras : List (List Char)) (st : ChunkerState),
      (∀ p ∈ paras, (pyWords p).length ≤ size) →
      ∀ w, (w ∈ (paras.map pyWords).flatten ∨
          (∃ c ∈ st.chunks, w ∈ pyWords c.text) ∨ w ∈ pyWords st.cur) →
        ∃ c ∈ finalizeState (paras.foldl (paraStep size ov) st),
          w ∈ pyWords c.text := by
  intro paras
  induction paras with
  | nil =>
    intro st _ w hw
    rcases hw with hw | ⟨c, hc, hcw⟩ | hw
    · simp at hw
    · exact ⟨c, mem_finalizeState_of_mem_chunks hc, hcw⟩
    · exact mem_finalizeState_of_mem_cur hw
  | cons p rest ih =>
    intro st hsz w hw
    have hp : (pyWords p).length ≤ size := hsz p (by simp)
    simp only [List.foldl_cons]
    refine ih (paraStep size ov st p) (fun q hq => hsz q (by simp [hq])) w ?_
    rcases hw with hw | hw
    · simp only [List.map_cons, List.flatten_cons, List.mem_append] at hw
      rcases hw with hw | hw
      · rcases paraStep_transfer hp (Or.inl hw) with h | h
        · exact Or.inr (Or.inl h)
        · exact Or.inr (Or.inr h)
      · exact Or.inl hw
    · rcases paraStep_transfer hp (Or.inr hw) with h | h
      · exact Or.inr (Or.inl h)
      · exact Or.inr (Or.inr h)

end SimpleTokenChunker

/-! ### The overlap-seeding invariant of the chunker

Whenever `chunk` seals the buffer, the next buffer is seeded with
`' '.join(current_chunk.split()[-overlap:])`, i.e. with
`pySliceLast ov (pyWords current_chunk)`; the buffer afterwards only grows at
whitespace boundaries.  Hence each chunk's word list after the first starts
with the `[-overlap:]` slice of its predecessor's word list. -/

/-- Chunk `b`'s word list starts with the `[-ov:]` slice of chunk `a`'s
word list. -/
def seededFrom (ov : Nat) (a b : Chunk) : Prop :=
  ∃ rest, pyWords b.text = pySliceLast ov (pyWords a.text) ++ rest

/-- Loop invariant: the sealed chunks are pairwise overlap-seeded, and the
buffer extends the `[-ov:]` slice of the last sealed chunk. -/
def SeedInv (ov : Nat) (st : ChunkerState) : Prop :=
  List.Chain' (seededFrom ov) st.chunks ∧
  ∀ c, st.chunks.getLast? = some c →
    st.cur ≠ [] ∧
      ∃ rest, pyWords st.cur = pySliceLast ov (pyWords c.text) ++ rest

theorem sliceWords_props {ov : Nat} {u : List Char} :
    ∀ w ∈ pySliceLast ov (pyWords u), w ≠ [] ∧ ∀ c ∈ w, ¬ isPySpace c :=
  fun _ hw => pyWords_mem (pySliceLast_subset hw)

theorem pyWords_joinSp_slice (ov : Nat) (u : List Char) :
    pyWords (joinSp (pySliceLast ov (pyWords u))) =
      pySliceLast ov (pyWords u) :=
  pyWords_joinSp sliceWords_props

theorem pyWords_seed_append (ov : Nat) (u x : List Char) :
    pyWords (joinSp (pySliceLast ov (pyWords u)) ++ ' ' :: x) =
      pySliceLast ov (pyWords u) ++ pyWords x := by
  have h := pyWords_append_sep
    (a := joinSp (pySliceLast ov (pyWords u))) (d := [' ']) (b := x)
    (by simp) (by simp [isPySpace])
  simpa [pyWords_joinSp_slice] using h

/-- If the `' '.join` of the slice is empty, the slice itself is empty. -/
theorem slice_of_joinSp_eq_nil {ov : Nat} {u : List Char}
    (h : joinSp (pySliceLast ov (pyWords u)) = []) :
    pySliceLast ov (pyWords u) = [] := by
  by_contra hne
  exact joinSp_ne_nil hne (fun w hw => (sliceWords_props w hw).1) h

theorem pyStrip_ne_nil_of {s : List Char} (h : pyStrip s ≠ []) : s ≠ [] := by
  intro hnil
  exact h (by simp [hnil, pyStrip, dropTrailWs])

namespace SimpleTokenChunker

/-- Sealing the buffer into the chunk list preserves the pairwise chain and
makes the sealed chunk the new last chunk. -/
theorem seal_chain {ov : Nat} {st : ChunkerState} (h : SeedInv ov st) :
    List.Chain' (seededFrom ov) (st.chunks ++ [mkChunk st.cur st.tok]) := by
  rcases h with ⟨hchain, hlink⟩
  rw [List.chain'_append]
  refine ⟨hchain, List.chain'_singleton _, ?_⟩
  intro x hx y hy
  obtain rfl : y = mkChunk st.cur st.tok := by
    have := hy
    simp at this
    exact this.symm
  obtain ⟨-, rest, hrest⟩ := hlink x hx
  exact ⟨rest, by simpa [mkChunk] using hrest⟩

theorem sentStep_seedInv {size ov : Nat} {st : ChunkerState}
    (h : SeedInv ov st) (s : List Char) :
    SeedInv ov (sentStep size ov st s) := by
  by_cases hskip : pyStrip s = []
  · rwa [sentStep_skip_eq hskip]
  · have hsnil : s ≠ [] := pyStrip_ne_nil_of hskip
    by_cases hseal : st.tok + (pyWords s).length > size ∧ st.cur ≠ []
    · rw [sentStep_seal_eq hskip hseal]
      refine ⟨seal_chain h, ?_⟩
      intro c hc
      have hcn : c = mkChunk st.cur st.tok := by
        have := hc
        simp [List.getLast?_concat] at this
        exact this.symm
      subst hcn
      by_cases hov : joinSp (pySliceLast ov (pyWords st.cur)) ≠ []
      · rw [if_pos hov]
        refine ⟨by simp, pyWords s, ?_⟩
        simpa [mkChunk] using pyWords_seed_append ov st.cur s
      · rw [if_neg hov]
        have hsl : pySliceLast ov (pyWords st.cur) = [] :=
          slice_of_joinSp_eq_nil (not_not.mp hov)
        exact ⟨hsnil, pyWords s, by simp [mkChunk, hsl]⟩
    · rw [sentStep_acc_eq hskip hseal]
      rcases h with ⟨hchain, hlink⟩
      refine ⟨hchain, ?_⟩
      intro c hc
      obtain ⟨hcur, rest, hrest⟩ := hlink c hc
      rw [if_pos hcur]
      refine ⟨by simp [hcur], rest ++ pyWords s, ?_⟩
      have happ := pyWords_append_sep (a := st.cur) (d := [' ']) (b := s)
        (by simp) (by simp [isPySpace])
      rw [show st.cur ++ ' ' :: s = st.cur ++ [' '] ++ s by simp, happ,
        hrest, List.append_assoc]

theorem paraStep_seedInv {size ov : Nat} {st : ChunkerState}
    (h : SeedInv ov st) (p : List Char) :
    SeedInv ov (paraStep size ov st p) := by
  by_cases hfb : (pyWords p).length > size
  · rw [paraStep_fallback_eq hfb]
    generalize sentSplit p = sentences
    induction sentences generalizing st with
    | nil => exact h
    | cons s rest ih => exact ih (sentStep_seedInv h s)
  · by_cases hseal : st.tok + (pyWords p).length > size ∧ st.cur ≠ []
    · rw [paraStep_seal_eq hfb hseal]
      refine ⟨seal_chain h, ?_⟩
      intro c hc
      have hcn : c = mkChunk st.cur st.tok := by
        have := hc
        simp [List.getLast?_concat] at this
        exact this.symm
      subst hcn
      refine ⟨by simp, pyWords p, ?_⟩
      simpa [mkChunk] using pyWords_seed_append ov st.cur p
    · rw [paraStep_acc_eq hfb hseal]
      rcases h with ⟨hchain, hlink⟩
      refine ⟨hchain, ?_⟩
      intro c hc
      obtain ⟨hcur, rest, hrest⟩ := hlink c hc
      rw [if_pos hcur]
      refine ⟨by simp [hcur], rest ++ pyWords p, ?_⟩
      have happ := pyWords_append_sep (a := st.cur) (d := ['\n', '\n'])
        (b := p) (by simp) (by simp [isPySpace])
      rw [show st.cur ++ '\n' :: '\n' :: p = st.cur ++ ['\n', '\n'] ++ p by
        simp, happ, hrest, List.append_assoc]

theorem foldl_paraStep_seedInv {size ov : Nat} :
    ∀ (paras : List (List Char)) (st : ChunkerState), SeedInv ov st →
      SeedInv ov (paras.foldl (paraStep size ov) st) := by
  intro paras
  induction paras with
  | nil => intro st h; exact h
  | cons p rest ih =>
    intro st h
    simp only [List.foldl_cons]
    exact ih _ (paraStep_seedInv h p)

theorem finalizeState_chain {ov : Nat} {st : ChunkerState}
    (h : SeedInv ov st) :
    List.Chain' (seededFrom ov) (finalizeState st) := by
  unfold finalizeState
  by_cases hcur : st.cur ≠ []
  · rw [if_pos hcur]
    exact seal_chain h
  · rw [if_neg hcur]
    exact h.1

/-- The chunks `SimpleTokenChunker.chunk` returns are pairwise
overlap-seeded: each one's word list starts with the `[-overlap:]` slice of
its predecessor's. -/
theorem chunk_overlap_chain (size ov : Nat) (text : List Char) :
    List.Chain' (seededFrom ov) (chunk size ov text) := by
  unfold chunk
  by_cases hempty : pyStrip text = []
  · simp [hempty]
  · rw [if_neg hempty]
    refine finalizeState_chain (foldl_paraStep_seedInv _ _ ?_)
    exact ⟨List.chain'_nil, by intro c hc; simp at hc⟩

end SimpleTokenChunker

/-! ### Lemmas about batching (`add_documents`) -/

theorem toBatchesF_flatten :
    ∀ (n : Nat) (l : List α), l.length ≤ n → (toBatchesF n l).flatten = l := by
  intro n
  induction n with
  | zero =>
    intro l hl
    obtain rfl : l = [] := List.eq_nil_of_length_eq_zero (Nat.le_zero.mp hl)
    rfl
  | succ n ih =>
    intro l hl
    cases l with
    | nil => rfl
    | cons x t =>
      have hlen : ((x :: t).drop 100).length ≤ n := by
        simp only [List.length_drop, List.length_cons]
        simp only [List.length_cons] at hl
        omega
      simp only [toBatchesF, List.flatten_cons, ih _ hlen]
      exact List.take_append_drop 100 (x :: t)

theorem toBatches_flatten (l : List α) : (toBatches l).flatten = l :=
  toBatchesF_flatten l.length l le_rfl

theorem toBatchesF_le :
    ∀ (n : Nat) (l b : List α), b ∈ toBatchesF n l → b.length ≤ 100 := by
  intro n
  induction n with
  | zero => intro l b hb; simp [toBatchesF] at hb
  | succ n ih =>
    intro l b hb
    cases l with
    | nil => simp [toBatchesF] at hb
    | cons x t =>
      simp only [toBatchesF, List.mem_cons] at hb
      rcases hb with rfl | hb
      · simp only [List.length_take]
        omega
      · exact ih _ b hb

theorem toBatches_le {l b : List α} (hb : b ∈ toBatches l) :
    b.length ≤ 100 :=
  toBatchesF_le l.length l b hb

/-! ### Lemmas about `extract_from_directory` -/

namespace DocumentExtractor

theorem mem_assocSet {V : Type} :
    ∀ {acc : List (List Char × V)} {k : List Char} {v : V}
      {e : List Char × V}, e ∈ assocSet acc k v → e = (k, v) ∨ e ∈ acc := by
  intro acc
  induction acc with
  | nil => intro k v e he; simpa [assocSet] using he
  | cons p rest ih =>
    intro k v e he
    obtain ⟨k', v'⟩ := p
    simp only [assocSet] at he
    by_cases hk : k' = k
    · rw [if_pos hk] at he
      rcases List.mem_cons.mp he with rfl | he'
      · exact Or.inl (by rw [hk])
      · exact Or.inr (by simp [he'])
    · rw [if_neg hk] at he
      rcases List.mem_cons.mp he with rfl | he'
      · exact Or.inr (by simp)
      · rcases ih he' with h | h
        · exact Or.inl h
        · exact Or.inr (by simp [h])

theorem foldl_extract_mem :
    ∀ (fs : List MFile) (acc : List (List Char × List Char))
      (e : List Char × List Char),
      e ∈ fs.foldl (fun results f =>
        match extract_text f with
        | Except.ok t => assocSet results f.name t
        | Except.error _ => results) acc →
      e ∈ acc ∨ ∃ f ∈ fs, f.name = e.1 ∧ extract_text f = Except.ok e.2 := by
  intro fs
  induction fs with
  | nil => intro acc e he; exact Or.inl (by simpa using he)
  | cons f rest ih =>
    intro acc e he
    simp only [List.foldl_cons] at he
    rcases ih _ e he with hacc | ⟨g, hg, hgn, hgt⟩
    · cases hext : extract_text f with
      | ok t =>
        rw [hext] at hacc
        rcases mem_assocSet hacc with rfl | h
        · exact Or.inr ⟨f, by simp, rfl, by simpa using hext⟩
        · exact Or.inl h
      | error u =>
        rw [hext] at hacc
        exact Or.inl hacc
    · exact Or.inr ⟨g, by simp [hg], hgn, hgt⟩

/-- Every entry of the returned mapping records a successful extraction of
an enumerated file under that file's base name. -/
theorem extract_from_directory_mem {dir : List MFile}
    {e : List Char × List Char} (he : e ∈ extract_from_directory dir) :
    ∃ f ∈ filesOf dir, f.name = e.1 ∧ extract_text f = Except.ok e.2 := by
  rcases foldl_extract_mem (filesOf dir) [] e he with h | h
  · simp at h
  · exact h

end DocumentExtractor

/-! ### Substring characterisation (`in` on strings) -/

theorem strContains_iff (pat : List Char) :
    ∀ (s : List Char), strContains pat s = true ↔ ∃ l r, s = l ++ pat ++ r := by
  intro s
  induction s with
  | nil =>
    simp only [strContains]
    constructor
    · intro h
      obtain rfl : pat = [] := by simpa using h
      exact ⟨[], [], rfl⟩
    · rintro ⟨l, r, h⟩
      have := h.symm
      simp only [List.append_eq_nil] at this
      simp [this.1.2]
  | cons c t ih =>
    simp only [strContains, Bool.or_eq_true]
    constructor
    · rintro (h | h)
      · obtain ⟨r, hr⟩ := List.isPrefixOf_iff_prefix.mp h
        exact ⟨[], r, by simp [← hr]⟩
      · obtain ⟨l, r, hr⟩ := ih.mp h
        exact ⟨c :: l, r, by simp [hr]⟩
    · rintro ⟨l, r, h⟩
      cases l with
      | nil =>
        left
        exact List.isPrefixOf_iff_prefix.mpr ⟨r, by simpa using h.symm⟩
      | cons d l' =>
        right
        simp only [List.cons_append, List.cons.injEq] at h
        exact ih.mpr ⟨l', r, h.2⟩

-- Evaluation checks: the executable definitions on concrete inputs.
example : (SimpleTokenChunker.chunk 1 0 (("a. b. c").toList)).map Chunk.text =
    [("a").toList, ("a b").toList, ("a b c").toList] := by decide
example : (SimpleTokenChunker.chunk 3 1 (("a b c\n\nd e\n\nf").toList)).map Chunk.text =
    [("a b c").toList, ("c d e").toList, ("e f").toList] := by decide
example : SimpleTokenChunker.chunk 5 2 (("  \n ").toList) = [] := by decide
example : (SimpleTokenChunker.chunk 512 50 (("hello world").toList)).map Chunk.token_count = [2] := by decide
example : paraSplit (("a b\n\ncd").toList) = [("a b").toList, ("cd").toList] := by decide
example : paraSplit (("a\n \n\nb").toList) = [("a").toList, ("b").toList] := by decide
example : paraSplit (("a\n b").toList) = [("a\n b").toList] := by decide
example : sentSplit (("a. b! c").toList) = [("a").toList, ("b").toList, ("c").toList] := by decide
example : sentSplit (("a!? b").toList) = [("a").toList, ("b").toList] := by decide
example : sentSplit (("a! ! b").toList) = [("a").toList, [], ("b").toList] := by decide
example : sentSplit (("a.b c").toList) = [("a.b c").toList] := by decide
example : sentSplit ((". a").toList) = [[], ("a").toList] := by decide
example : pyWords (("  a bc  d ").toList) = [("a").toList, ("bc").toList, ("d").toList] := by decide
example : pyStrip (("  a b ").toList) = ("a b").toList := by decide
example : pySliceLast 0 [1, 2, 3] = [1, 2, 3] := by decide
example : pySliceLast 2 [1, 2, 3] = [2, 3] := by decide
example : pySliceLast 5 [1, 2, 3] = [1, 2, 3] := by decide
example : joinSp [("a").toList, ("bc").toList] = ("a bc").toList := by decide
example : strContains (("3-small").toList) (("text-embedding-3-small").toList) = true := by decide
example : strContains (("3-large").toList) (("text-embedding-3-small").toList) = false := by decide

/-! ## The claims -/

/-- C1, counterexample: with `chunk_size = 1`, `chunk_overlap = 0` and input
`"a. b. c"` (one paragraph of 3 tokens, triggering the sentence-level
fallback), the input word `"a."` appears in no chunk: the sentence split
deletes the matched `[.!?]+\s+` delimiters, so the chunks are `"a"`,
`"a b"`, `"a b c"`. -/
theorem C1_counterexample :
    ¬ (∀ w ∈ pyWords (("a. b. c").toList),
        ∃ c ∈ SimpleTokenChunker.chunk 1 0 (("a. b. c").toList),
          w ∈ pyWords c.text) := by
  decide

/-- C1, amended: for every configuration and every input text in which no
parsed paragraph has more than `chunk_size` whitespace tokens (so the
sentence-level fallback never runs), every whitespace-delimited word of the
input appears in at least one chunk's text. -/
theorem C1_chunk_no_content_loss (size ov : Nat) (text : List Char)
    (h : ∀ p ∈ SimpleTokenChunker.parsedParas text,
      (pyWords p).length ≤ size) :
    ∀ w ∈ pyWords text,
      ∃ c ∈ SimpleTokenChunker.chunk size ov text, w ∈ pyWords c.text := by
  intro w hw
  unfold SimpleTokenChunker.chunk
  by_cases hempty : pyStrip text = []
  · rw [← pyWords_pyStrip text, hempty] at hw
    simp [pyWords, pyWordsAux] at hw
  · rw [if_neg hempty]
    apply SimpleTokenChunker.chunk_conserves_aux size ov _ _ h
    left
    rw [← pyWords_parsedParas]
    exact hw

/-- C1, witness for the amended theorem at a concrete input. -/
theorem C1_witness :
    (∀ p ∈ SimpleTokenChunker.parsedParas (("ab cd").toList),
      (pyWords p).length ≤ 10) ∧
    (∀ w ∈ pyWords (("ab cd").toList),
      ∃ c ∈ SimpleTokenChunker.chunk 10 5 (("ab cd").toList),
        w ∈ pyWords c.text) :=
  ⟨by decide, C1_chunk_no_content_loss 10 5 (("ab cd").toList) (by decide)⟩

/-- C3: `add_documents` on an empty texts list returns 0 and issues no
network request at all — in particular no embedding request and no upsert
(the check precedes every call, whatever the oracles would answer). -/
theorem C3_add_documents_empty {M V : Type} (metadatas : List M)
    (embedResp : Option (List V)) (countResp : Option Nat) :
    QdrantRESTClient.add_documents [] metadatas embedResp countResp =
      some ([], 0) := rfl

/-- C4: on an existing directory whose extraction yields zero documents,
`ingest_directory` returns the `{"status": "warning", "files_processed": 0}`
result without raising, and neither the chunker nor `add_documents` is
called. -/
theorem C4_ingest_directory_empty {V : Type} (force : Bool) (size ov : Nat)
    (embedResp : Option (List V)) (countResp : Option Nat)
    (infoPoints : Nat) :
    (IngestionPipeline.ingest_directory true force [] size ov embedResp
      countResp infoPoints).2 = Except.ok (IngestSummary.warning 0) ∧
    PipeAction.chunkCall ∉ (IngestionPipeline.ingest_directory true force []
      size ov embedResp countResp infoPoints).1 ∧
    PipeAction.addDocsCall ∉ (IngestionPipeline.ingest_directory true force
      [] size ov embedResp countResp infoPoints).1 := by
  cases force <;> simp [IngestionPipeline.ingest_directory]

/-- C9: with `chunk_overlap = 0`, the slice `words[-0:]` is the whole word
list, so after every seal the next buffer is seeded with all words of the
sealed chunk: each chunk's word sequence begins with its predecessor's
entire word sequence (full containment instead of zero overlap). -/
theorem C9_zero_overlap_full_containment (size : Nat) (text : List Char)
    (i : Nat) (hi : i + 1 < (SimpleTokenChunker.chunk size 0 text).length) :
    ∃ rest,
      pyWords ((SimpleTokenChunker.chunk size 0 text).get ⟨i + 1, hi⟩).text =
        pyWords ((SimpleTokenChunker.chunk size 0 text).get
          ⟨i, by omega⟩).text ++ rest := by
  have h := SimpleTokenChunker.chunk_overlap_chain size 0 text
  rw [List.chain'_iff_get] at h
  have h2 := h i (by omega)
  unfold seededFrom at h2
  simpa [pySliceLast] using h2

/-- C9, witness: `chunk 1 0 "a. b. c"` is `["a", "a b", "a b c"]`; the
second chunk's words contain the first chunk's words as a prefix. -/
theorem C9_witness :
    ∃ rest,
      pyWords ((SimpleTokenChunker.chunk 1 0 (("a. b. c").toList)).get
        ⟨1, by decide⟩).text =
      pyWords ((SimpleTokenChunker.chunk 1 0 (("a. b. c").toList)).get
        ⟨0, by decide⟩).text ++ rest :=
  C9_zero_overlap_full_containment 1 (("a. b. c").toList) 0 (by decide)

theorem pySliceLast_length {ov : Nat} {l : List α} (h0 : ov ≠ 0)
    (hle : ov ≤ l.length) : (pySliceLast ov l).length = ov := by
  unfold pySliceLast
  rw [if_neg h0, List.length_drop]
  omega

/-- C6: with `0 < overlap < chunk_size`, every chunk after the first whose
predecessor has at least `overlap` tokens starts with exactly the last
`overlap` tokens of that predecessor (the `[-overlap:]` slice of its word
list); the claim's remaining exception (a predecessor shorter than
`overlap`) is the hypothesis, and no exception is needed for the
final-buffer seal. -/
theorem C6_overlap_tokens_shared (size ov : Nat) (text : List Char)
    (h1 : 0 < ov) (h2 : ov < size) (i : Nat)
    (hi : i + 1 < (SimpleTokenChunker.chunk size ov text).length)
    (hlen : ov ≤ (pyWords ((SimpleTokenChunker.chunk size ov text).get
      ⟨i, by omega⟩).text).length) :
    (pyWords ((SimpleTokenChunker.chunk size ov text).get
        ⟨i + 1, hi⟩).text).take ov =
      pySliceLast ov (pyWords ((SimpleTokenChunker.chunk size ov text).get
        ⟨i, by omega⟩).text) := by
  have h := SimpleTokenChunker.chunk_overlap_chain size ov text
  rw [List.chain'_iff_get] at h
  obtain ⟨rest, hrest⟩ := h i (by omega)
  rw [hrest]
  have hsl : (pySliceLast ov (pyWords
      ((SimpleTokenChunker.chunk size ov text).get ⟨i, by omega⟩).text)).length
      = ov := pySliceLast_length (by omega) hlen
  exact List.take_left' hsl

/-- C6, witness: `chunk 3 1 "a b c\n\nd e\n\nf"` is
`["a b c", "c d e", "e f"]`; the second chunk starts with `"c"`, the last
token of the first. -/
theorem C6_witness :
    (pyWords ((SimpleTokenChunker.chunk 3 1
        (("a b c\n\nd e\n\nf").toList)).get ⟨1, by decide⟩).text).take 1 =
      pySliceLast 1 (pyWords ((SimpleTokenChunker.chunk 3 1
        (("a b c\n\nd e\n\nf").toList)).get ⟨0, by decide⟩).text) :=
  C6_overlap_tokens_shared 3 1 (("a b c\n\nd e\n\nf").toList)
    (by decide) (by decide) 0 (by decide) (by decide)

theorem upsertBatches_trace {M V : Type} (texts : List (List Char))
    (bs : List (List (PointRec M V))) :
    QdrantRESTClient.upsertBatches
      ([NetCall.embedReq texts, NetCall.countReq] ++
        bs.map NetCall.upsertReq) = bs := by
  unfold QdrantRESTClient.upsertBatches
  rw [List.filterMap_append]
  simp only [List.filterMap_map]
  have h1 : List.filterMap (fun c =>
      match c with
      | NetCall.upsertReq ps => some ps
      | _ => none) [NetCall.embedReq texts, NetCall.countReq] =
      ([] : List (List (PointRec M V))) := rfl
  rw [h1, List.nil_append]
  have h2 : ((fun c =>
      match c with
      | NetCall.upsertReq ps => some ps
      | _ => none) ∘ NetCall.upsertReq) =
      (fun ps : List (PointRec M V) => some ps) := rfl
  rw [h2]
  exact List.filterMap_some bs

/-- C2: when `texts` is nonempty with an equal-length `metadatas`, the
embedding reply is well-formed (one vector per text) and the point-count
read succeeds with `c`, `add_documents` returns `len(texts)`, and the
upserted points are exactly: ids `c, c+1, ..., c+n-1` in input order, each
carrying payload `{**metadata_i, "text": text_i}`, uploaded in batches of at
most 100 points per request. -/
theorem C2_add_documents_spec {M V : Type} (texts : List (List Char))
    (metadatas : List M) (embs : List V) (c : Nat)
    (hne : texts ≠ []) (hm : metadatas.length = texts.length)
    (he : embs.length = texts.length) :
    ∃ tr : List (NetCall M V),
      QdrantRESTClient.add_documents texts metadatas (some embs) (some c) =
        some (tr, texts.length) ∧
      ∃ hl : (QdrantRESTClient.upsertBatches tr).flatten.length =
          texts.length,
      (∀ i : Fin texts.length,
        ((QdrantRESTClient.upsertBatches tr).flatten.get
            (Fin.cast hl.symm i)).id = c + i.1 ∧
        ((QdrantRESTClient.upsertBatches tr).flatten.get
            (Fin.cast hl.symm i)).payloadText = texts.get i ∧
        ((QdrantRESTClient.upsertBatches tr).flatten.get
            (Fin.cast hl.symm i)).payloadMeta =
          metadatas.get (Fin.cast hm.symm i)) ∧
      ∀ b ∈ QdrantRESTClient.upsertBatches tr, b.length ≤ 100 := by
  have hpts : QdrantRESTClient.add_documents texts metadatas (some embs)
      (some c) =
      some ([NetCall.embedReq texts, NetCall.countReq] ++
        (toBatches ((List.zip texts (List.zip embs metadatas)).enum.map
          (fun q => { id := c + q.1, vector := q.2.2.1,
                      payloadMeta := q.2.2.2, payloadText := q.2.1 }))).map
          NetCall.upsertReq,
        ((List.zip texts (List.zip embs metadatas)).enum.map
          (fun q => ({ id := c + q.1, vector := q.2.2.1,
                       payloadMeta := q.2.2.2,
                       payloadText := q.2.1 } : PointRec M V))).length) := by
    unfold QdrantRESTClient.add_documents
    rw [if_neg hne]
    rfl
  set pts := (List.zip texts (List.zip embs metadatas)).enum.map
    (fun q => ({ id := c + q.1, vector := q.2.2.1, payloadMeta := q.2.2.2,
                 payloadText := q.2.1 } : PointRec M V)) with hpts_def
  have hlen : pts.length = texts.length := by
    simp [hpts_def, List.length_zip, he, hm]
  refine ⟨[NetCall.embedReq texts, NetCall.countReq] ++
    (toBatches pts).map NetCall.upsertReq, ?_, ?_⟩
  · rw [hpts, hlen]
  · rw [upsertBatches_trace, toBatches_flatten]
    refine ⟨hlen, ?_, ?_⟩
    · intro i
      have hi : i.1 < pts.length := by rw [hlen]; exact i.2
      have hiz : i.1 < (List.zip texts (List.zip embs metadatas)).length := by
        simpa [hpts_def] using hi
      have hget : pts.get (Fin.cast hlen.symm i) =
          { id := c + i.1,
            vector := embs.get (Fin.cast he.symm i),
            payloadMeta := metadatas.get (Fin.cast hm.symm i),
            payloadText := texts.get i } := by
        simp [hpts_def, List.get_eq_getElem, List.getElem_map,
          List.getElem_enum, List.getElem_zip]
      rw [hget]
      exact ⟨rfl, rfl, rfl⟩
    · intro b hb
      exact toBatches_le hb

/-- C2, witness at a concrete two-document batch. -/
theorem C2_witness :
    ∃ tr : List (NetCall Nat Nat),
      QdrantRESTClient.add_documents
          [("a").toList, ("b").toList] [0, 1] (some [10, 20]) (some 5) =
        some (tr, [("a").toList, ("b").toList].length) ∧
      ∃ hl : (QdrantRESTClient.upsertBatches tr).flatten.length =
          [("a").toList, ("b").toList].length,
      (∀ i : Fin [("a").toList, ("b").toList].length,
        ((QdrantRESTClient.upsertBatches tr).flatten.get
            (Fin.cast hl.symm i)).id = 5 + i.1 ∧
        ((QdrantRESTClient.upsertBatches tr).flatten.get
            (Fin.cast hl.symm i)).payloadText =
          [("a").toList, ("b").toList].get i ∧
        ((QdrantRESTClient.upsertBatches tr).flatten.get
            (Fin.cast hl.symm i)).payloadMeta =
          [0, 1].get (Fin.cast (by decide : ([0, 1] : List Nat).length =
            [("a").toList, ("b").toList].length).symm i)) ∧
      ∀ b ∈ QdrantRESTClient.upsertBatches tr, b.length ≤ 100 :=
  C2_add_documents_spec [("a").toList, ("b").toList] [0, 1] [10, 20] 5
    (by decide) (by decide) (by decide)

/-- C7: the embedding dimension is a total function of the model name —
1536 when the name contains `"3-small"` or `"ada-002"`, else 3072 when it
contains `"3-large"`, else 1536 — and when the configured collection is
absent from the listed names, `_ensure_collection` creates it with exactly
this dimension as the vector size. -/
theorem C7_embedding_dim (model : List Char) :
    ((∃ l r, model = l ++ ("3-small").toList ++ r) ∨
     (∃ l r, model = l ++ ("ada-002").toList ++ r) →
      QdrantRESTClient.get_embedding_dim model = 1536) ∧
    (¬ ((∃ l r, model = l ++ ("3-small").toList ++ r) ∨
        (∃ l r, model = l ++ ("ada-002").toList ++ r)) →
      (∃ l r, model = l ++ ("3-large").toList ++ r) →
      QdrantRESTClient.get_embedding_dim model = 3072) ∧
    (¬ ((∃ l r, model = l ++ ("3-small").toList ++ r) ∨
        (∃ l r, model = l ++ ("ada-002").toList ++ r) ∨
        (∃ l r, model = l ++ ("3-large").toList ++ r)) →
      QdrantRESTClient.get_embedding_dim model = 1536) ∧
    ∀ (names : List (List Char)) (collName : List Char),
      collName ∉ names →
      QdrantRESTClient.ensure_collection (some names) collName model =
        QdrantRESTClient.EnsureAction.created
          (QdrantRESTClient.get_embedding_dim model) := by
  refine ⟨?_, ?_, ?_, ?_⟩
  · intro h
    have hc : (strContains (("3-small").toList) model ||
        strContains (("ada-002").toList) model) = true := by
      rw [Bool.or_eq_true]
      rcases h with h | h
      · exact Or.inl ((strContains_iff _ _).mpr h)
      · exact Or.inr ((strContains_iff _ _).mpr h)
    unfold QdrantRESTClient.get_embedding_dim
    rw [if_pos hc]
  · intro hns hl
    have hc : ¬ ((strContains (("3-small").toList) model ||
        strContains (("ada-002").toList) model) = true) := by
      rw [Bool.or_eq_true]
      rintro (hx | hx)
      · exact hns (Or.inl ((strContains_iff _ _).mp hx))
      · exact hns (Or.inr ((strContains_iff _ _).mp hx))
    unfold QdrantRESTClient.get_embedding_dim
    rw [if_neg hc, if_pos ((strContains_iff _ _).mpr hl)]
  · intro hns
    have hc : ¬ ((strContains (("3-small").toList) model ||
        strContains (("ada-002").toList) model) = true) := by
      rw [Bool.or_eq_true]
      rintro (hx | hx)
      · exact hns (Or.inl ((strContains_iff _ _).mp hx))
      · exact hns (Or.inr (Or.inl ((strContains_iff _ _).mp hx)))
    have hc2 : ¬ (strContains (("3-large").toList) model = true) := by
      intro hx
      exact hns (Or.inr (Or.inr ((strContains_iff _ _).mp hx)))
    unfold QdrantRESTClient.get_embedding_dim
    rw [if_neg hc, if_neg hc2]
  · intro names collName h
    have heq : QdrantRESTClient.ensure_collection (some names) collName
        model =
        if collName ∈ names then QdrantRESTClient.EnsureAction.existing
        else QdrantRESTClient.EnsureAction.created
          (QdrantRESTClient.get_embedding_dim model) := rfl
    rw [heq, if_neg h]

/-- C7, witness: the large model maps to 3072 and an absent collection is
created with that size. -/
theorem C7_witness :
    QdrantRESTClient.get_embedding_dim
        (("text-embedding-3-large").toList) = 3072 ∧
    QdrantRESTClient.ensure_collection (some [])
        (("university_docs").toList) (("text-embedding-3-large").toList) =
      QdrantRESTClient.EnsureAction.created 3072 := by
  have h := C7_embedding_dim (("text-embedding-3-large").toList)
  have hns : ¬ ((∃ l r, ("text-embedding-3-large").toList =
        l ++ ("3-small").toList ++ r) ∨
      (∃ l r, ("text-embedding-3-large").toList =
        l ++ ("ada-002").toList ++ r)) := by
    rintro (hx | hx)
    · exact absurd ((strContains_iff _ _).mpr hx) (by decide)
    · exact absurd ((strContains_iff _ _).mpr hx) (by decide)
  have hl : ∃ l r, ("text-embedding-3-large").toList =
      l ++ ("3-large").toList ++ r :=
    ⟨("text-embedding-").toList, [], by decide⟩
  have hdim := h.2.1 hns hl
  refine ⟨hdim, ?_⟩
  have hens := h.2.2.2 [] (("university_docs").toList) (by simp)
  rw [hdim] at hens
  exact hens

/-- C8: for every existing file whose extraction succeeds, `ingest_file`
passes `format_for_qdrant` the one-element list `[formatted_chunks]`; the
comprehension then subscripts a list with the string key `"text"`, raising
`TypeError` before any upsert — the success summary is unreachable. -/
theorem C8_ingest_file_type_error (fileName text : List Char)
    (size ov addResult : Nat) :
    (IngestionPipeline.ingest_file true fileName (Except.ok text) size ov
      addResult).2 = Except.error PyErr.typeError ∧
    PipeAction.addDocsCall ∉ (IngestionPipeline.ingest_file true fileName
      (Except.ok text) size ov addResult).1 := by
  have heq : IngestionPipeline.ingest_file true fileName (Except.ok text)
      size ov addResult =
      ([PipeAction.chunkCall], Except.error PyErr.typeError) := rfl
  rw [heq]
  exact ⟨rfl, by simp⟩

/-- C5: per-file extraction failures are skipped, never aborting the batch.
A directory holding one corrupt `.pdf` and one valid `.txt` yields exactly
the one text document, and in general every returned entry is a successful
extraction of an enumerated file. -/
theorem C5_extraction_failure_skipped (tn tc pn : List Char) :
    DocumentExtractor.extract_from_directory
      [{ name := pn, top := true, ext := FileExt.pdf,
         content := MContent.broken },
       { name := tn, top := true, ext := FileExt.txt,
         content := MContent.plain tc }] = [(tn, tc)] ∧
    ∀ (dir : List MFile) (e : List Char × List Char),
      e ∈ DocumentExtractor.extract_from_directory dir →
      ∃ f ∈ DocumentExtractor.filesOf dir,
        f.name = e.1 ∧ DocumentExtractor.extract_text f = Except.ok e.2 := by
  constructor
  · simp [DocumentExtractor.extract_from_directory, DocumentExtractor.filesOf,
      DocumentExtractor.extract_text, DocumentExtractor.assocSet,
      List.filter, List.foldl_cons, List.foldl_nil,
      (by decide : (FileExt.pdf == FileExt.pdf) = true),
      (by decide : (FileExt.pdf == FileExt.txt) = false),
      (by decide : (FileExt.pdf == FileExt.md) = false),
      (by decide : (FileExt.txt == FileExt.pdf) = false),
      (by decide : (FileExt.txt == FileExt.txt) = true),
      (by decide : (FileExt.txt == FileExt.md) = false),
      (by decide : (FileExt.md == FileExt.pdf) = false),
      (by decide : (FileExt.md == FileExt.txt) = false),
      (by decide : (FileExt.md == FileExt.md) = true)]
  · intro dir e he
    exact DocumentExtractor.extract_from_directory_mem he

/-- C5, witness: the general provenance part, applied to a directory with a
single readable text file. -/
theorem C5_witness :
    ∃ f ∈ DocumentExtractor.filesOf
        [{ name := ("a.txt").toList, top := true, ext := FileExt.txt,
           content := MContent.plain (("hello").toList) }],
      f.name = ("a.txt").toList ∧
      DocumentExtractor.extract_text f = Except.ok (("hello").toList) :=
  (C5_extraction_failure_skipped [] [] []).2
    [{ name := ("a.txt").toList, top := true, ext := FileExt.txt,
       content := MContent.plain (("hello").toList) }]
    ((("a.txt").toList, ("hello").toList)) (by decide)

theorem count_filter_neg {α : Type} [BEq α] [LawfulBEq α] {p : α → Bool}
    {a : α} (h : p a = false) (l : List α) : (l.filter p).count a = 0 := by
  rw [List.count_eq_zero]
  intro hmem
  have hpa := (List.mem_filter.mp hmem).2
  rw [h] at hpa
  exact Bool.false_ne_true hpa

/-- C10: the result mapping is keyed by base file name only — two
successfully extracted same-named files (in different subdirectories)
collapse to a single entry holding the later file's text — and every
top-level file is enumerated twice, once by the non-recursive glob and once
by the recursive one. -/
theorem C10_extract_keyed_by_base_name (nm t1 t2 : List Char) :
    DocumentExtractor.extract_from_directory
      [{ name := nm, top := false, ext := FileExt.txt,
         content := MContent.plain t1 },
       { name := nm, top := false, ext := FileExt.txt,
         content := MContent.plain t2 }] = [(nm, t2)] ∧
    ∀ (dir : List MFile) (f : MFile), f.top = true →
      (DocumentExtractor.filesOf dir).count f = 2 * dir.count f := by
  constructor
  · simp [DocumentExtractor.extract_from_directory, DocumentExtractor.filesOf,
      DocumentExtractor.extract_text, DocumentExtractor.assocSet,
      List.filter, List.foldl_cons, List.foldl_nil,
      (by decide : (FileExt.pdf == FileExt.pdf) = true),
      (by decide : (FileExt.pdf == FileExt.txt) = false),
      (by decide : (FileExt.pdf == FileExt.md) = false),
      (by decide : (FileExt.txt == FileExt.pdf) = false),
      (by decide : (FileExt.txt == FileExt.txt) = true),
      (by decide : (FileExt.txt == FileExt.md) = false),
      (by decide : (FileExt.md == FileExt.pdf) = false),
      (by decide : (FileExt.md == FileExt.txt) = false),
      (by decide : (FileExt.md == FileExt.md) = true)]
  · intro dir f htop
    obtain ⟨fn, ft, fe, fc⟩ := f
    subst htop
    cases fe <;>
      simp [DocumentExtractor.filesOf, List.count_append, List.count_filter,
        count_filter_neg, List.filter,
      (by decide : (FileExt.pdf == FileExt.pdf) = true),
      (by decide : (FileExt.pdf == FileExt.txt) = false),
      (by decide : (FileExt.pdf == FileExt.md) = false),
      (by decide : (FileExt.txt == FileExt.pdf) = false),
      (by decide : (FileExt.txt == FileExt.txt) = true),
      (by decide : (FileExt.txt == FileExt.md) = false),
      (by decide : (FileExt.md == FileExt.pdf) = false),
      (by decide : (FileExt.md == FileExt.txt) = false),
      (by decide : (FileExt.md == FileExt.md) = true)] <;> omega

/-- C10, witness: a single top-level `.md` file is enumerated twice. -/
theorem C10_witness :
    (DocumentExtractor.filesOf
        [{ name := ("r.md").toList, top := true, ext := FileExt.md,
           content := MContent.plain [] }]).count
      { name := ("r.md").toList, top := true, ext := FileExt.md,
        content := MContent.plain [] } = 2 := by
  have h := (C10_extract_keyed_by_base_name [] [] []).2
    [{ name := ("r.md").toList, top := true, ext := FileExt.md,
       content := MContent.plain [] }]
    { name := ("r.md").toList, top := true, ext := FileExt.md,
      content := MContent.plain [] } rfl
  simpa using h
